import Mathlib

/-
Verification of the page-discovery and page-ordering core of the
site-to-pdf converter (src/site_to_pdf.py).

The embedding models:
  * link strings as lists of characters (`Chars`),
  * file-system paths as lists of path segments (`FPath`),
  * the scanned directory tree as an explicit `FS` value,
  * the HTML parser as an oracle `FPath → Option Doc` giving, for each
    file, the parse result the BeautifulSoup collaborator would return
    (title text, meta description, anchor hrefs in document order,
    sidebar-container anchor hrefs when such a container exists), or
    `none` when opening/parsing the file raises.

Python-specific behaviours are modelled explicitly where they matter:
`str.lstrip(chars)` removes *all* leading characters drawn from the
given set; `not self.max_pages` treats both `None` and `0` as falsy;
`list(set(...))` produces the elements in an unspecified order, which
is modelled by an explicit ordering parameter `setOrder` constrained
only to produce a duplicate-free list with the same membership.
-/

/- Character-list string helpers (Python str operations). -/

abbrev Chars := List Char

abbrev FPath := List Chars

/-- Does the string `s` start with the pattern `p`? (Python `str.startswith`.) -/
def startsWithL : Chars → Chars → Bool
  | [], _ => true
  | _ :: _, [] => false
  | a :: as, b :: bs => a == b && startsWithL as bs

/-- Does the string `s` end with the pattern `p`? (Python `str.endswith`.) -/
def endsWithL (p s : Chars) : Bool :=
  startsWithL p.reverse s.reverse

/-- Substring test (Python `in` on strings). -/
def containsSub : Chars → Chars → Bool
  | [], needle => needle.isEmpty
  | c :: t, needle => startsWithL needle (c :: t) || containsSub t needle

/-- Python `str.lower` (adequate for the ASCII names the tool compares). -/
def lowerL (s : Chars) : Chars :=
  s.map Char.toLower

/-- Python `str.strip()`: drop whitespace from both ends. -/
def trimL (s : Chars) : Chars :=
  ((s.dropWhile Char.isWhitespace).reverse.dropWhile Char.isWhitespace).reverse

/-- Split a string on the path separator (used to model how `pathlib`
turns the string argument of `/` into path components). -/
def splitSlash : Chars → List Chars
  | [] => [[]]
  | c :: t =>
    let r := splitSlash t
    if c == '/' then [] :: r
    else
      match r with
      | [] => [[c]]
      | h :: rt => (c :: h) :: rt

/-- Python `link.lstrip('./')`: removes every leading character that is a
dot or a slash (a character *set*, not the two-character string). -/
def lstripDotSlash (s : Chars) : Chars :=
  s.dropWhile (fun c => c == '.' || c == '/')

/-- Number of path-separator characters occurring in a string. -/
def countSlash (s : Chars) : Nat :=
  (s.filter (fun c => c == '/')).length

/-- Value of a hexadecimal digit, if the character is one. -/
def hexVal (c : Char) : Option Nat :=
  if c.isDigit then some (c.toNat - ('0').toNat)
  else if 'a' ≤ c ∧ c ≤ 'f' then some (c.toNat - ('a').toNat + 10)
  else if 'A' ≤ c ∧ c ≤ 'F' then some (c.toNat - ('A').toNat + 10)
  else none

/-- Percent-decoding (Python `urllib.parse.unquote`), modelled for
single-byte escapes; an invalid escape is left untouched, as in Python.
(Python additionally reassembles multi-byte UTF-8 escape runs, which
never arise in the inputs considered here.) -/
def unquoteL : Chars → Chars
  | [] => []
  | '%' :: a :: b :: rest =>
    match hexVal a, hexVal b with
    | some x, some y => Char.ofNat (16 * x + y) :: unquoteL rest
    | _, _ => '%' :: unquoteL (a :: b :: rest)
  | c :: rest => c :: unquoteL rest

/- File-system model. A path is the list of its segments relative to the
file-system root, so the Python string `/r/sub/a.html` is
`[r, sub, a.html]`; the root `/` itself is `[]`. `files` holds the
regular files, `dirs` the directories. -/

structure FS where
  files : List FPath
  dirs : List FPath

/-- Python `Path.exists()`: the path names a regular file or a directory. -/
def pathExists (fs : FS) (p : FPath) : Prop :=
  p ∈ fs.files ∨ p ∈ fs.dirs

instance (fs : FS) (p : FPath) : Decidable (pathExists fs p) := by
  unfold pathExists
  exact inferInstance

/-- Python `Path.exists() and Path.is_file()`. -/
def isFile (fs : FS) (p : FPath) : Prop :=
  p ∈ fs.files

instance (fs : FS) (p : FPath) : Decidable (isFile fs p) := by
  unfold isFile
  exact inferInstance

/-- `pathlib` `/` join with a relative string: split on slashes and drop
empty and single-dot components (pathlib collapses both at
construction). `..` components are kept and handled by `resolve`. -/
def pyJoin (p : FPath) (link : Chars) : FPath :=
  p ++ (splitSlash link).filter (fun s => !s.isEmpty && s != ['.'])

/-- `Path.resolve()` on an absolute path without symlinks: collapse `.`
and `..` components (`..` at the root stays at the root, as on POSIX). -/
def normalizeSegs (p : FPath) : FPath :=
  p.foldl
    (fun acc s =>
      if s == ['.'] || s.isEmpty then acc
      else if s == ['.', '.'] then acc.dropLast
      else acc ++ [s])
    []

/-- Length of `str(path)` for an absolute path: one separator in front of
each segment (`/r/a.html` has length 2 + 6). -/
def pathStrLen (p : FPath) : Nat :=
  p.foldl (fun a s => a + 1 + s.length) 0

/-- The string of a path relative to the root (`str(relative_path)`),
segments joined by `/` with no leading separator. -/
def relStr : FPath → Chars
  | [] => []
  | [s] => s
  | s :: rest => s ++ '/' :: relStr rest

/-- Final component of a path (Python `Path.name`); `[]` for the root. -/
def lastSeg (p : FPath) : Chars :=
  (p.getLast?).getD []

/-- Index of the last dot in a name, if any (`str.rfind('.')`). -/
def rfindDot (n : Chars) : Option Nat :=
  match (n.reverse).findIdx? (fun c => c == '.') with
  | some j => some (n.length - 1 - j)
  | none => none

/-- Python `Path.stem`: the name without its suffix; the suffix is the
part from the last dot, and is empty when the dot is the first or the
last character of the name. -/
def stemOf (n : Chars) : Chars :=
  match rfindDot n with
  | some i => if 0 < i ∧ i < n.length - 1 then n.take i else n
  | none => n

/- Parse oracle. BeautifulSoup is an external collaborator; a `Doc`
records what the code reads from a parsed file: the `<title>` element's
text when present, the meta-description content (default empty), the
`href` of every `<a href=...>` in document order, the `href`s of the
anchors of the sidebar container (`aside.sidebar` or
`ul.sidebar-links`) in document order when such a container exists, and
the file size reported by `stat()`. An oracle value of `none` for a
file models an exception while opening, reading, parsing or statting
that file. -/

structure Doc where
  title : Option Chars
  descr : Chars
  anchors : List Chars
  sidebarAnchors : Option (List Chars)
  size : Nat

/-- One registry entry (`self.page_info[str(html_file)]`,
src/site_to_pdf.py lines 115-123). -/
structure PageRec where
  title : Chars
  descr : Chars
  links : List Chars
  depth : Nat
  size : Nat
  relPath : Chars

/-- Link clean-up of `analyze_page_structure` (line 106):
`unquote(href.split('#')[0].split('?')[0])`. -/
def cleanHref (h : Chars) : Chars :=
  unquoteL ((h.takeWhile (fun c => c != '#')).takeWhile (fun c => c != '?'))

/-- Filter of `analyze_page_structure` (line 108): keep a cleaned href
only when it is nonempty and ends in `.html`, `.htm` or `/`. -/
def keepLink (h : Chars) : Bool :=
  !h.isEmpty &&
    (endsWithL (".html".toList) h || endsWithL (".htm".toList) h ||
      endsWithL (['/']) h)

/-- The raw link list a page contributes before deduplication
(lines 102-109): every anchor href, cleaned, then filtered. -/
def extractLinks (anchors : List Chars) : List Chars :=
  (anchors.map cleanHref).filter keepLink

/-- A function may stand in for Python's `list(set(...))` (line 118) iff
it returns the distinct elements of its argument in some order: Python
fixes the membership but not the order (string hashing is randomized
between runs). -/
def IsSetOrder (f : List Chars → List Chars) : Prop :=
  ∀ l, (f l).Nodup ∧ ∀ x, x ∈ f l ↔ x ∈ l

/-- One registry record (lines 93-123), for a file `f` under the root
with parse result `doc`; `setOrder` stands for `list(set(...))`. -/
def mkRec (root f : FPath) (doc : Doc) (setOrder : List Chars → List Chars) :
    PageRec :=
  { title :=
      match doc.title with
      | some t => trimL t
      | none => stemOf (lastSeg f)
    descr := doc.descr
    links := setOrder (extractLinks doc.anchors)
    depth := (f.drop root.length).length - 1
    size := doc.size
    relPath := relStr (f.drop root.length) }

/-- Python `dict` assignment `d[k] = v`: replace in place when the key
is present, append otherwise. -/
def dictInsert : List (FPath × PageRec) → FPath → PageRec → List (FPath × PageRec)
  | [], k, v => [(k, v)]
  | kv :: rest, k, v =>
    if kv.1 = k then (k, v) :: rest else kv :: dictInsert rest k v

/-- Python `d.get(k)` / `k in d` on the registry. -/
def regFind (reg : List (FPath × PageRec)) (k : FPath) : Option PageRec :=
  (reg.find? (fun kv => decide (kv.1 = k))).map Prod.snd

/-- `analyze_page_structure` (lines 83-126): walk the discovered files in
order; a file whose parse oracle raises (`none`) is skipped and the
loop continues; otherwise its record is stored under its path. -/
def analyze_page_structure (root : FPath) (htmlFiles : List FPath)
    (parse : FPath → Option Doc) (setOrder : List Chars → List Chars) :
    List (FPath × PageRec) :=
  htmlFiles.foldl
    (fun reg f =>
      match parse f with
      | none => reg
      | some doc => dictInsert reg f (mkRec root f doc setOrder))
    []

/-- The candidate absolute path `_resolve_link` builds from the stripped
link `l` (lines 255-268): the root-relative join when `l` starts with a
slash, else the join onto the directory of the current page; then the
`index.html` default for a directory link; then `resolve()`. -/
def linkTarget (root current_page : FPath) (l : Chars) : FPath :=
  normalizeSegs
    ((if startsWithL (['/']) l then
        pyJoin root (l.dropWhile (fun c => c == '/'))
      else pyJoin current_page.dropLast l) ++
      (if endsWithL (['/']) l then ["index.html".toList] else []))

/-- `_resolve_link` (lines 246-274). Note two behaviours inherited from
the source: `link.lstrip('./')` strips *all* leading dots and slashes,
and the `link.startswith('/')` test is made on that stripped string. -/
def resolve_link (fs : FS) (root : FPath) (current_page : FPath)
    (link : Chars) : Option FPath :=
  if startsWithL ("http://".toList) link || startsWithL ("https://".toList) link
  then none
  else if isFile fs (linkTarget root current_page (lstripDotSlash link)) then
    some (linkTarget root current_page (lstripDotSlash link))
  else none

/-- `_resolve_page_path` (lines 276-284): applies only when the page
path *string* ends in `/`. Every queue element is the `str` of a
resolved `Path`, and such a string ends in `/` only for the root path
`/` itself, i.e. for the empty segment list. -/
def resolve_page_path (fs : FS) (p : FPath) : Option FPath :=
  if p.isEmpty then
    if pathExists fs (p ++ ["index.html".toList]) then
      some (p ++ ["index.html".toList])
    else none
  else none

/-- The fixed priority list of `find_start_page` (lines 131-136). -/
def index_names : List Chars :=
  ["index.html".toList, "index.htm".toList,
   "home.html".toList, "home.htm".toList,
   "default.html".toList, "default.htm".toList,
   "main.html".toList, "main.htm".toList]

/-- Python `min(xs, key=...)` applied to `x :: xs`: the *first* element
achieving the minimal key is kept, because the fold replaces the
champion only on a strictly smaller key. -/
def minFold (key : FPath → Nat) (x : FPath) (xs : List FPath) : FPath :=
  xs.foldl (fun b a => if key a < key b then a else b) x

/-- Python `min(l, key=...)` (and equally `sorted(l, key=...)[0]` for a
stable sort), as an `Option` for the empty list. -/
def firstMinBy (key : FPath → Nat) : List FPath → Option FPath
  | [] => none
  | x :: xs => some (minFold key x xs)

/-- `find_start_page` (lines 128-161): canonical names directly under
the root, else the shortest-`str` discovered file whose name contains
`index` case-insensitively, else the discovered file with the fewest
segments relative to the root, else `None`. -/
def find_start_page (fs : FS) (root : FPath) (htmlFiles : List FPath) :
    Option FPath :=
  match index_names.find? (fun n => decide (pathExists fs (root ++ [n]))) with
  | some n => some (root ++ [n])
  | none =>
    match firstMinBy pathStrLen
        (htmlFiles.filter
          (fun f => containsSub (lowerL (lastSeg f)) ("index".toList))) with
    | some f => some f
    | none => firstMinBy (fun f => (f.drop root.length).length) htmlFiles

/-- Href filter of `_extract_sidebar_order` (line 233): nonempty and not
starting with `http://`, `https://` or `#`. -/
def sidebarHrefOk (h : Chars) : Bool :=
  !h.isEmpty &&
    !(startsWithL ("http://".toList) h || startsWithL ("https://".toList) h ||
      startsWithL (['#']) h)

/-- Body of the anchor loop of `_extract_sidebar_order` (lines 231-237):
a usable, resolvable anchor target is appended when not already
present. -/
def sidebarStep (fs : FS) (root : FPath) (index_page : FPath)
    (acc : List FPath) (h : Chars) : List FPath :=
  if sidebarHrefOk h then
    match resolve_link fs root index_page h with
    | some p => if p ∈ acc then acc else acc ++ [p]
    | none => acc
  else acc

/-- `_extract_sidebar_order` (lines 216-244): an exception while reading
or parsing the start page yields `[]`; a missing sidebar container
yields `[]`; a found container yields the start page followed by each
resolvable anchor target not already present, in document order.
Note that a found container always produces a list containing at least
the start page, even when it holds no usable anchor. -/
def extract_sidebar_order (fs : FS) (root : FPath)
    (parse : FPath → Option Doc) (index_page : FPath) : List FPath :=
  match parse index_page with
  | none => []
  | some doc =>
    match doc.sidebarAnchors with
    | none => []
    | some hrefs => hrefs.foldl (sidebarStep fs root index_page) [index_page]

/-- Python truthiness of `self.max_pages : Optional[int]`: `None` and
`0` are falsy, every other integer truthy. -/
def pyTruthyCap : Option Int → Bool
  | none => false
  | some n => decide (n ≠ 0)

/-- The guard `not self.max_pages or len(ordered_pages) < self.max_pages`
(lines 185 and 210). -/
def capAllows (mp : Option Int) (len : Nat) : Bool :=
  !pyTruthyCap mp || decide ((len : Int) < mp.getD 0)

/-- The append-missing-registry-pages loop (lines 174-177 and 207-211),
parameterized by the admission test applied to the current output
length: the sidebar branch admits unconditionally, the breadth-first
branch consults the page cap. -/
def appendMissing (cap : Nat → Bool) (regKeys : List FPath)
    (acc : List FPath) : List FPath :=
  regKeys.foldl
    (fun acc p =>
      if p ∈ acc then acc
      else if cap acc.length then acc ++ [p] else acc)
    acc

/-- The breadth-first loop of `build_page_tree` (lines 181-205), with an
explicit fuel counting loop iterations. Each iteration pops one queue
element, and at most `1 + Σ links` elements are ever enqueued (the
seed plus, for each registry page — visitable at most once — its
links), so `build_page_tree` below supplies fuel `1 + Σ links`, enough
for the loop to run to its Python termination condition. -/
def bfsLoop (fs : FS) (root : FPath) (reg : List (FPath × PageRec))
    (mp : Option Int) :
    Nat → List FPath → List FPath → List FPath → List FPath
  | 0, _, _, ordered => ordered
  | _ + 1, [], _, ordered => ordered
  | fuel + 1, cur :: rest, visited, ordered =>
    if !capAllows mp ordered.length then ordered
    else if cur ∈ visited then bfsLoop fs root reg mp fuel rest visited ordered
    else
      match (if pathExists fs cur then some cur else resolve_page_path fs cur) with
      | none => bfsLoop fs root reg mp fuel rest visited ordered
      | some cur2 =>
        let visited2 := cur2 :: visited
        let ordered2 := ordered ++ [cur2]
        let pushes :=
          match regFind reg cur2 with
          | some r =>
            (r.links.filterMap (resolve_link fs root cur2)).filter
              (fun lp => decide (lp ∉ visited2))
          | none => []
        bfsLoop fs root reg mp fuel (rest ++ pushes) visited2 ordered2

/-- Fuel sufficient for `bfsLoop`: the seed plus the total number of
stored links across the registry. -/
def bfsFuel (reg : List (FPath × PageRec)) : Nat :=
  1 + (reg.map (fun kv => kv.2.links.length)).sum

/-- `build_page_tree` (lines 163-214). No start page: the raw discovered
list is returned. A nonempty sidebar order: missing registry pages are
appended with *no* cap check (lines 174-177). Otherwise: breadth-first
traversal from the start page followed by the capped append of missing
registry pages (lines 181-211). -/
def build_page_tree (fs : FS) (root : FPath) (htmlFiles : List FPath)
    (reg : List (FPath × PageRec)) (parse : FPath → Option Doc)
    (mp : Option Int) : List FPath :=
  match find_start_page fs root htmlFiles with
  | none => htmlFiles
  | some start =>
    if !(extract_sidebar_order fs root parse start).isEmpty then
      appendMissing (fun _ => true) (reg.map Prod.fst)
        (extract_sidebar_order fs root parse start)
    else
      appendMissing (capAllows mp) (reg.map Prod.fst)
        (bfsLoop fs root reg mp (bfsFuel reg) [start] [] [])

/- General helper lemmas. -/

lemma find?_congr_mem {α : Type} (p q : α → Bool) :
    ∀ l : List α, (∀ z ∈ l, p z = q z) → l.find? p = l.find? q := by
  intro l
  induction l with
  | nil => intro _; rfl
  | cons a t ih =>
    intro h
    have ha : p a = q a := h a (List.mem_cons_self a t)
    have ht : ∀ z ∈ t, p z = q z := fun z hz => h z (List.mem_cons_of_mem a hz)
    cases hq : q a with
    | true =>
      rw [List.find?_cons_of_pos _ (ha.trans hq), List.find?_cons_of_pos _ hq]
    | false =>
      rw [List.find?_cons_of_neg, List.find?_cons_of_neg, ih ht]
      · simp [hq]
      · simp [ha, hq]

lemma foldl_suffix {β : Type} (step : List FPath → β → List FPath)
    (hstep : ∀ acc x, ∃ u, step acc x = acc ++ u) :
    ∀ (l : List β) (acc : List FPath), ∃ t, l.foldl step acc = acc ++ t := by
  intro l
  induction l with
  | nil => intro acc; exact ⟨[], (List.append_nil acc).symm⟩
  | cons x xs ih =>
    intro acc
    obtain ⟨u, hu⟩ := hstep acc x
    obtain ⟨t, ht⟩ := ih (step acc x)
    exact ⟨u ++ t, by rw [List.foldl_cons, ht, hu, List.append_assoc]⟩

lemma isSetOrder_dedup : IsSetOrder List.dedup :=
  fun l => ⟨l.nodup_dedup, fun _ => List.mem_dedup⟩

lemma setOrder_nil {so : List Chars → List Chars} (hso : IsSetOrder so) :
    so [] = [] := by
  cases h : so [] with
  | nil => rfl
  | cons a t =>
    have := ((hso []).2 a).mp (by rw [h]; exact List.mem_cons_self a t)
    simp at this

lemma setOrder_singleton {so : List Chars → List Chars} (hso : IsSetOrder so)
    (x : Chars) : so [x] = [x] := by
  obtain ⟨hnd, hm⟩ := hso [x]
  have hx : x ∈ so [x] := (hm x).mpr (List.mem_cons_self x [])
  have hall : ∀ y ∈ so [x], y = x := by
    intro y hy
    have := (hm y).mp hy
    simpa using this
  cases h : so [x] with
  | nil => rw [h] at hx; simp at hx
  | cons a t =>
    have ha : a = x := hall a (by rw [h]; exact List.mem_cons_self a t)
    cases t with
    | nil => rw [ha]
    | cons b u =>
      have hb : b = x := hall b (by rw [h]; simp)
      rw [h] at hnd
      have : a ∉ b :: u := (List.nodup_cons.mp hnd).1
      rw [ha, hb] at this
      simp at this

/- Registry characterization: `analyze_page_structure` stores exactly one
record per successfully parsed discovered file, and that record is a
function of that file alone. -/

lemma regFind_dictInsert (reg : List (FPath × PageRec)) (k : FPath)
    (v : PageRec) (f : FPath) :
    regFind (dictInsert reg k v) f = if f = k then some v else regFind reg f := by
  induction reg with
  | nil =>
    by_cases h : f = k
    · subst h
      simp [dictInsert, regFind, List.find?]
    · have h2 : ¬k = f := fun hh => h hh.symm
      simp [dictInsert, regFind, List.find?, h, h2]
  | cons kv rest ih =>
    by_cases hk : kv.1 = k
    · simp only [dictInsert, if_pos hk]
      by_cases hf : f = k
      · subst hf
        simp [regFind, List.find?]
      · have h2 : ¬k = f := fun hh => hf hh.symm
        have h3 : ¬kv.1 = f := fun hh => hf (hh.symm.trans hk)
        simp [regFind, List.find?, h2, h3, hf]
    · simp only [dictInsert, if_neg hk]
      by_cases hkvf : kv.1 = f
      · have hf : ¬f = k := fun hh => hk (hkvf.trans hh)
        simp [regFind, List.find?, hkvf, hf]
      · have l1 : regFind (kv :: dictInsert rest k v) f =
            regFind (dictInsert rest k v) f := by
          simp [regFind, List.find?, hkvf]
        have l2 : regFind (kv :: rest) f = regFind rest f := by
          simp [regFind, List.find?, hkvf]
        rw [l1, ih, l2]

lemma analyze_go (root : FPath) (parse : FPath → Option Doc)
    (so : List Chars → List Chars) :
    ∀ (files : List FPath) (acc : List (FPath × PageRec)) (f : FPath),
      regFind
          (files.foldl
            (fun reg g =>
              match parse g with
              | none => reg
              | some doc => dictInsert reg g (mkRec root g doc so))
            acc) f =
        if f ∈ files ∧ (parse f).isSome then
          (parse f).map (fun d => mkRec root f d so)
        else regFind acc f := by
  intro files
  induction files with
  | nil => intro acc f; simp
  | cons g rest ih =>
    intro acc f
    rw [List.foldl_cons, ih]
    by_cases hf : f = g
    · subst hf
      cases hp : parse f with
      | none =>
        simp [hp]
      | some d =>
        by_cases hrest : f ∈ rest
        · simp [hp, hrest]
        · simp [hp, hrest, regFind_dictInsert]
    · cases hp : parse g with
      | none =>
        simp [List.mem_cons, hf]
      | some d =>
        by_cases hrest : f ∈ rest ∧ (parse f).isSome
        · simp [hrest, List.mem_cons, hf]
        · simp only [List.mem_cons, hf, false_or]
          simp only [if_neg hrest, regFind_dictInsert, if_neg hf]

lemma analyze_lookup (root : FPath) (files : List FPath)
    (parse : FPath → Option Doc) (so : List Chars → List Chars) (f : FPath) :
    regFind (analyze_page_structure root files parse so) f =
      if f ∈ files then (parse f).map (fun d => mkRec root f d so) else none := by
  unfold analyze_page_structure
  rw [analyze_go]
  by_cases hf : f ∈ files
  · cases hp : parse f with
    | none => simp [hf, hp, regFind, List.find?]
    | some d => simp [hf, hp]
  · simp [hf, regFind, List.find?]

/- Start-page selection, stated the way the claim words it: within a
tier, the chosen element is the first encountered one whose key is
minimal over the whole candidate list. -/

/-- First element of `l` whose key is less than or equal to the key of
every element of `l` (the claim's tie-breaking rule, stated directly). -/
def specFirstMin (key : FPath → Nat) (l : List FPath) : Option FPath :=
  l.find? (fun x => decide (∀ y ∈ l, key x ≤ key y))

/-- The Start-Page Selector as the claim describes it: the fixed
canonical names under the root, first match wins; then the first
discovered file with an `index` name of globally minimal `str` length;
then the first discovered file with globally minimal relative segment
count. -/
def selectStartSpec (fs : FS) (root : FPath) (files : List FPath) :
    Option FPath :=
  match index_names.find? (fun n => decide (pathExists fs (root ++ [n]))) with
  | some n => some (root ++ [n])
  | none =>
    match specFirstMin pathStrLen
        (files.filter
          (fun f => containsSub (lowerL (lastSeg f)) ("index".toList))) with
    | some f => some f
    | none => specFirstMin (fun f => (f.drop root.length).length) files

lemma minFold_eq_specFirstMin (key : FPath → Nat) :
    ∀ (xs : List FPath) (x : FPath),
      some (minFold key x xs) = specFirstMin key (x :: xs) := by
  intro xs
  induction xs with
  | nil =>
    intro x
    simp [minFold, specFirstMin, List.find?]
  | cons a xs ih =>
    intro x
    have hstep : minFold key x (a :: xs) =
        minFold key (if key a < key x then a else x) xs := by
      simp [minFold, List.foldl]
    by_cases h : key a < key x
    · have hx : ¬∀ y ∈ x :: a :: xs, key x ≤ key y := by
        intro hall
        exact absurd (hall a (by simp)) (by omega)
      have hcong : ∀ z ∈ a :: xs,
          (fun z => decide (∀ y ∈ a :: xs, key z ≤ key y)) z =
            (fun z => decide (∀ y ∈ x :: a :: xs, key z ≤ key y)) z := by
        intro z _
        simp only [decide_eq_decide, List.mem_cons]
        constructor
        · intro hall y hy
          have ha := hall a (by simp)
          rcases hy with hyx | hy2
          · rw [hyx]; omega
          · exact hall y hy2
        · intro hall y hy
          exact hall y (Or.inr hy)
      have h1 : List.find?
            (fun z => decide (∀ y ∈ x :: a :: xs, key z ≤ key y))
            (x :: a :: xs) =
          List.find?
            (fun z => decide (∀ y ∈ x :: a :: xs, key z ≤ key y))
            (a :: xs) :=
        List.find?_cons_of_neg _ (by simpa using hx)
      have h2 := find?_congr_mem
        (fun z => decide (∀ y ∈ a :: xs, key z ≤ key y))
        (fun z => decide (∀ y ∈ x :: a :: xs, key z ≤ key y)) (a :: xs) hcong
      rw [hstep, if_pos h, ih a]
      unfold specFirstMin
      rw [h1]
      exact h2
    · have hxa : key x ≤ key a := Nat.le_of_not_lt h
      rw [hstep, if_neg h, ih x]
      unfold specFirstMin
      by_cases hQx : ∀ y ∈ x :: xs, key x ≤ key y
      · have hPx : ∀ y ∈ x :: a :: xs, key x ≤ key y := by
          intro y hy
          simp only [List.mem_cons] at hy
          rcases hy with h1 | h1 | h1
          · rw [h1]
          · rw [h1]; exact hxa
          · exact hQx y (List.mem_cons_of_mem x h1)
        rw [List.find?_cons_of_pos _ (by simpa using hQx),
          List.find?_cons_of_pos _ (by simpa using hPx)]
      · have hPx : ¬∀ y ∈ x :: a :: xs, key x ≤ key y := by
          intro hall
          apply hQx
          intro y hy
          simp only [List.mem_cons] at hy
          rcases hy with h1 | h1
          · rw [h1]
          · exact hall y (List.mem_cons_of_mem x (List.mem_cons_of_mem a h1))
        have hPa : ¬∀ y ∈ x :: a :: xs, key a ≤ key y := by
          intro hall
          apply hQx
          intro y hy
          simp only [List.mem_cons] at hy
          rcases hy with h1 | h1
          · rw [h1]
          · exact Nat.le_trans hxa (hall y
              (List.mem_cons_of_mem x (List.mem_cons_of_mem a h1)))
        have hcong : ∀ z ∈ xs,
            (fun z => decide (∀ y ∈ x :: xs, key z ≤ key y)) z =
              (fun z => decide (∀ y ∈ x :: a :: xs, key z ≤ key y)) z := by
          intro z _
          simp only [decide_eq_decide, List.mem_cons]
          constructor
          · intro hall y hy
            have hzx := hall x (Or.inl rfl)
            rcases hy with h1 | h1 | h1
            · rw [h1]; exact hzx
            · rw [h1]; exact Nat.le_trans hzx hxa
            · exact hall y (Or.inr h1)
          · intro hall y hy
            rcases hy with h1 | h1
            · rw [h1]; exact hall x (Or.inl rfl)
            · exact hall y (Or.inr (Or.inr h1))
        have e1 : List.find?
              (fun z => decide (∀ y ∈ x :: a :: xs, key z ≤ key y))
              (x :: a :: xs) =
            List.find?
              (fun z => decide (∀ y ∈ x :: a :: xs, key z ≤ key y))
              (a :: xs) :=
          List.find?_cons_of_neg _ (by simpa using hPx)
        have e2 : List.find?
              (fun z => decide (∀ y ∈ x :: a :: xs, key z ≤ key y))
              (a :: xs) =
            List.find?
              (fun z => decide (∀ y ∈ x :: a :: xs, key z ≤ key y)) xs :=
          List.find?_cons_of_neg _ (by simpa using hPa)
        have e3 : List.find?
              (fun z => decide (∀ y ∈ x :: xs, key z ≤ key y))
              (x :: xs) =
            List.find?
              (fun z => decide (∀ y ∈ x :: xs, key z ≤ key y)) xs :=
          List.find?_cons_of_neg _ (by simpa using hQx)
        rw [e1, e2, e3]
        exact find?_congr_mem _ _ xs hcong

lemma firstMinBy_eq_specFirstMin (key : FPath → Nat) (l : List FPath) :
    firstMinBy key l = specFirstMin key l := by
  cases l with
  | nil => rfl
  | cons x xs => exact minFold_eq_specFirstMin key xs x

/- Link-resolver lemmas. -/

lemma resolve_link_isFile {fs : FS} {root cur : FPath} {link : Chars}
    {p : FPath} (h : resolve_link fs root cur link = some p) : isFile fs p := by
  unfold resolve_link at h
  split at h
  · cases h
  · split at h
    · cases h
      assumption
    · cases h

lemma lstrip_head_not_slash (l : Chars) :
    startsWithL (['/']) (lstripDotSlash l) = false := by
  unfold lstripDotSlash
  induction l with
  | nil => rfl
  | cons c t ih =>
    rw [List.dropWhile_cons]
    by_cases hc : (c == '.' || c == '/') = true
    · rw [if_pos hc]
      exact ih
    · rw [if_neg hc]
      simp only [Bool.or_eq_true, beq_iff_eq, not_or] at hc
      have hcs : ('/' == c) = false := by
        simp only [beq_eq_false_iff_ne, ne_eq]
        exact fun hh => hc.2 hh.symm
      simp [startsWithL, hcs]

/- Cap lemmas. -/

lemma capAllows_some_lt {N : Int} {len : Nat} (hN : N ≠ 0)
    (h : capAllows (some N) len = true) : (len : Int) < N := by
  simp only [capAllows, pyTruthyCap, Option.getD_some] at h
  rw [decide_eq_true hN] at h
  simpa using h

lemma capAllows_zero_eq : capAllows (some 0) = capAllows none :=
  funext fun _ => rfl

/- `appendMissing` lemmas. -/

lemma appendMissing_suffix (cap : Nat → Bool) (keys acc : List FPath) :
    ∃ t, appendMissing cap keys acc = acc ++ t := by
  unfold appendMissing
  apply foldl_suffix
  intro a x
  by_cases h1 : x ∈ a
  · exact ⟨[], by simp [h1]⟩
  · by_cases h2 : cap a.length = true
    · exact ⟨[x], by simp [h1, h2]⟩
    · refine ⟨[], ?_⟩
      simp only [if_neg h1]
      simp [h2]

lemma appendMissing_length_le {N : Int} (hN : N ≠ 0) :
    ∀ (keys acc : List FPath), (acc.length : Int) ≤ N →
      ((appendMissing (capAllows (some N)) keys acc).length : Int) ≤ N := by
  intro keys
  induction keys with
  | nil =>
    intro acc h
    simpa [appendMissing] using h
  | cons k keys ih =>
    intro acc h
    have hstep : appendMissing (capAllows (some N)) (k :: keys) acc =
        appendMissing (capAllows (some N)) keys
          (if k ∈ acc then acc
           else if capAllows (some N) acc.length then acc ++ [k] else acc) := rfl
    rw [hstep]
    apply ih
    by_cases hk : k ∈ acc
    · simpa [hk] using h
    · by_cases hcap : capAllows (some N) acc.length = true
      · have hlt := capAllows_some_lt hN hcap
        simp only [if_neg hk, hcap, if_true, List.length_append,
          List.length_singleton]
        push_cast
        omega
      · simp only [if_neg hk]
        simp only [Bool.not_eq_true] at hcap
        simp [hcap, h]

lemma mem_appendMissing (cap : Nat → Bool) (hcap : ∀ n, cap n = true) :
    ∀ (keys acc : List FPath) (k : FPath), k ∈ keys ∨ k ∈ acc →
      k ∈ appendMissing cap keys acc := by
  intro keys
  induction keys with
  | nil =>
    intro acc k h
    rcases h with h | h
    · simp at h
    · simpa [appendMissing] using h
  | cons k2 keys ih =>
    intro acc k h
    have hstep : appendMissing cap (k2 :: keys) acc =
        appendMissing cap keys
          (if k2 ∈ acc then acc
           else if cap acc.length then acc ++ [k2] else acc) := rfl
    rw [hstep]
    have hsub : ∀ z, z ∈ acc →
        z ∈ (if k2 ∈ acc then acc
             else if cap acc.length then acc ++ [k2] else acc) := by
      intro z hz
      by_cases h1 : k2 ∈ acc
      · simpa [h1] using hz
      · simp [h1, hcap acc.length, List.mem_append, hz]
    have hk2 : k2 ∈ (if k2 ∈ acc then acc
        else if cap acc.length then acc ++ [k2] else acc) := by
      by_cases h1 : k2 ∈ acc
      · simp [h1]
      · simp [h1, hcap acc.length]
    rcases h with h | h
    · rcases List.mem_cons.mp h with h1 | h1
      · apply ih
        right
        rw [h1]
        exact hk2
      · exact ih _ _ (Or.inl h1)
    · exact ih _ _ (Or.inr (hsub k h))

/- Breadth-first loop lemmas. -/

lemma bfsLoop_length_le (fs : FS) (root : FPath)
    (reg : List (FPath × PageRec)) {N : Int} (hN : N ≠ 0) :
    ∀ (fuel : Nat) (queue visited ordered : List FPath),
      (ordered.length : Int) ≤ N →
      ((bfsLoop fs root reg (some N) fuel queue visited ordered).length : Int) ≤ N := by
  intro fuel
  induction fuel with
  | zero =>
    intro q v o h
    simpa [bfsLoop] using h
  | succ fuel ih =>
    intro q v o h
    cases q with
    | nil => simpa [bfsLoop] using h
    | cons cur rest =>
      simp only [bfsLoop]
      by_cases hcap : capAllows (some N) o.length = true
      · simp only [hcap, Bool.not_true, Bool.false_eq_true, if_false]
        by_cases hvis : cur ∈ v
        · simp only [hvis, if_true]
          exact ih rest v o h
        · simp only [hvis, if_false]
          cases hex : (if pathExists fs cur then some cur
              else resolve_page_path fs cur) with
          | none => exact ih rest v o h
          | some cur2 =>
            apply ih
            have hlt := capAllows_some_lt hN hcap
            simp only [List.length_append, List.length_singleton]
            push_cast
            omega
      · simp only [Bool.not_eq_true] at hcap
        simp [hcap, h]

lemma bfsLoop_inv (fs : FS) (root : FPath) (reg : List (FPath × PageRec))
    (mp : Option Int) :
    ∀ (fuel : Nat) (queue visited ordered : List FPath),
      ordered.Nodup → (∀ p ∈ ordered, p ∈ visited) →
      (∀ p ∈ ordered, pathExists fs p) →
      (∀ q ∈ queue, q ≠ [] ∨ pathExists fs q) →
      (bfsLoop fs root reg mp fuel queue visited ordered).Nodup ∧
        ∀ p ∈ bfsLoop fs root reg mp fuel queue visited ordered,
          pathExists fs p := by
  intro fuel
  induction fuel with
  | zero =>
    intro q v o h1 _ h3 _
    simp only [bfsLoop]
    exact ⟨h1, h3⟩
  | succ fuel ih =>
    intro q v o h1 h2 h3 hq
    cases q with
    | nil =>
      simp only [bfsLoop]
      exact ⟨h1, h3⟩
    | cons cur rest =>
      simp only [bfsLoop]
      cases hcap : (!capAllows mp o.length) with
      | true =>
        simp only [hcap, if_true]
        exact ⟨h1, h3⟩
      | false =>
        simp only [hcap, Bool.false_eq_true, if_false]
        by_cases hvis : cur ∈ v
        · simp only [hvis, if_true]
          exact ih rest v o h1 h2 h3
            (fun p hp => hq p (List.mem_cons_of_mem _ hp))
        · simp only [hvis, if_false]
          cases hex : (if pathExists fs cur then some cur
              else resolve_page_path fs cur) with
          | none =>
            exact ih rest v o h1 h2 h3
              (fun p hp => hq p (List.mem_cons_of_mem _ hp))
          | some cur2 =>
            have hcur2 : cur2 = cur ∧ pathExists fs cur := by
              by_cases hpe : pathExists fs cur
              · rw [if_pos hpe] at hex
                exact ⟨(Option.some.inj hex).symm, hpe⟩
              · rw [if_neg hpe] at hex
                rcases hq cur (List.mem_cons_self _ _) with hne | hpe2
                · unfold resolve_page_path at hex
                  rw [if_neg (by simpa using hne)] at hex
                  cases hex
                · exact absurd hpe2 hpe
            obtain ⟨he, hpe⟩ := hcur2
            subst he
            apply ih
            · rw [List.nodup_append]
              refine ⟨h1, List.nodup_singleton _, ?_⟩
              intro z hz hzc
              rw [List.mem_singleton.mp hzc] at hz
              exact hvis (h2 _ hz)
            · intro p hp
              rcases List.mem_append.mp hp with hp | hp
              · exact List.mem_cons_of_mem _ (h2 p hp)
              · rw [List.mem_singleton.mp hp]
                exact List.mem_cons_self _ _
            · intro p hp
              rcases List.mem_append.mp hp with hp | hp
              · exact h3 p hp
              · rw [List.mem_singleton.mp hp]
                exact hpe
            · intro p hp
              rcases List.mem_append.mp hp with hp | hp
              · exact hq p (List.mem_cons_of_mem _ hp)
              · right
                cases hreg : regFind reg cur2 with
                | none => rw [hreg] at hp; cases hp
                | some r =>
                  rw [hreg] at hp
                  have hp2 := List.mem_of_mem_filter hp
                  obtain ⟨a, _, ha2⟩ := List.mem_filterMap.mp hp2
                  exact Or.inl (resolve_link_isFile ha2)

lemma bfsLoop_cap_zero (fs : FS) (root : FPath)
    (reg : List (FPath × PageRec)) :
    ∀ (fuel : Nat) (queue visited ordered : List FPath),
      bfsLoop fs root reg (some 0) fuel queue visited ordered =
        bfsLoop fs root reg none fuel queue visited ordered := by
  intro fuel
  induction fuel with
  | zero => intro q v o; rfl
  | succ fuel ih =>
    intro q v o
    cases q with
    | nil => rfl
    | cons cur rest =>
      simp only [bfsLoop]
      have h0 : capAllows (some 0) o.length = true := rfl
      have hn : capAllows none o.length = true := rfl
      rw [h0, hn]
      simp only [Bool.not_true, Bool.false_eq_true, if_false]
      by_cases hvis : cur ∈ v
      · simp only [hvis, if_true]
        exact ih rest v o
      · simp only [hvis, if_false]
        cases hex : (if pathExists fs cur then some cur
            else resolve_page_path fs cur) with
        | none => exact ih rest v o
        | some cur2 => exact ih _ _ _

/- Sidebar-order lemmas. -/

lemma sidebarStep_suffix (fs : FS) (root : FPath) (ip : FPath) :
    ∀ (acc : List FPath) (x : Chars),
      ∃ u, sidebarStep fs root ip acc x = acc ++ u := by
  intro acc x
  unfold sidebarStep
  by_cases h1 : sidebarHrefOk x = true
  · rw [if_pos h1]
    cases h2 : resolve_link fs root ip x with
    | none => exact ⟨[], (List.append_nil acc).symm⟩
    | some p =>
      by_cases h3 : p ∈ acc
      · exact ⟨[], by simp [h3]⟩
      · exact ⟨[p], by simp [h3]⟩
  · rw [if_neg h1]
    exact ⟨[], (List.append_nil acc).symm⟩

lemma extract_sidebar_with_container (fs : FS) (root : FPath)
    (parse : FPath → Option Doc) (ip : FPath) (doc : Doc)
    (hrefs : List Chars) (hp : parse ip = some doc)
    (hsb : doc.sidebarAnchors = some hrefs) :
    ∃ t, extract_sidebar_order fs root parse ip = ip :: t := by
  have heq : extract_sidebar_order fs root parse ip =
      hrefs.foldl (sidebarStep fs root ip) [ip] := by
    unfold extract_sidebar_order
    simp only [hp, hsb]
  obtain ⟨t, ht⟩ := foldl_suffix _ (sidebarStep_suffix fs root ip) hrefs [ip]
  exact ⟨t, by rw [heq, ht]; rfl⟩

lemma extract_sidebar_eq_nil_iff (fs : FS) (root : FPath)
    (parse : FPath → Option Doc) (ip : FPath) :
    extract_sidebar_order fs root parse ip = [] ↔
      (parse ip = none ∨ (parse ip).bind Doc.sidebarAnchors = none) := by
  cases hp : parse ip with
  | none => simp [extract_sidebar_order, hp]
  | some doc =>
    cases hsb : doc.sidebarAnchors with
    | none => simp [extract_sidebar_order, hp, hsb]
    | some hrefs =>
      apply iff_of_false
      · obtain ⟨t, ht⟩ :=
          extract_sidebar_with_container fs root parse ip doc hrefs hp hsb
        rw [ht]
        simp
      · simp [hp, hsb]

/- Slash counting for the depth property (C8). -/

lemma countSlash_nil_of_no_slash {s : Chars} (h : ('/' : Char) ∉ s) :
    countSlash s = 0 := by
  unfold countSlash
  rw [List.filter_eq_nil_iff.mpr]
  · rfl
  · intro c hc
    simp only [beq_iff_eq]
    intro hcc
    exact h (hcc ▸ hc)

lemma countSlash_relStr :
    ∀ segs : FPath, segs ≠ [] → (∀ s ∈ segs, ('/' : Char) ∉ s) →
      countSlash (relStr segs) = segs.length - 1 := by
  intro segs
  induction segs with
  | nil => intro h _; cases h rfl
  | cons s rest ih =>
    intro _ hseg
    cases rest with
    | nil =>
      rw [show relStr [s] = s from rfl,
        countSlash_nil_of_no_slash (hseg s (by simp))]
      rfl
    | cons s2 rest2 =>
      rw [show relStr (s :: s2 :: rest2) = s ++ '/' :: relStr (s2 :: rest2)
          from rfl]
      unfold countSlash
      rw [List.filter_append, List.length_append]
      have h1 : s.filter (fun c => c == '/') = [] := by
        have h0 := countSlash_nil_of_no_slash (hseg s (by simp))
        unfold countSlash at h0
        exact List.length_eq_zero.mp h0
      have h2 : (('/' : Char) :: relStr (s2 :: rest2)).filter
          (fun c => c == '/') =
          '/' :: (relStr (s2 :: rest2)).filter (fun c => c == '/') := by
        simp
      have ih2 := ih (by simp) (fun t ht => hseg t (by simp [ht]))
      unfold countSlash at ih2
      rw [h1, h2]
      simp only [List.length_nil, List.length_cons] at ih2 ⊢
      omega

/- The Link Resolver never takes the root-relative branch: the stripped
link cannot start with a slash (C3). -/

/-- The candidate path built relative to the current page's directory
only; after `lstrip('./')` this is the only branch the source can
take. -/
def linkTargetRel (current_page : FPath) (l : Chars) : FPath :=
  normalizeSegs
    (pyJoin current_page.dropLast l ++
      (if endsWithL (['/']) l then ["index.html".toList] else []))

/-- The Link Resolver as the claim words it: strip exactly one leading
`./`, then resolve a `/`-leading link against the root and any other
link against the current page's directory. -/
def resolve_link_claim (fs : FS) (root : FPath) (current_page : FPath)
    (link : Chars) : Option FPath :=
  if startsWithL ("http://".toList) link || startsWithL ("https://".toList) link
  then none
  else if isFile fs (linkTarget root current_page
      (if startsWithL ("./".toList) link then link.drop 2 else link)) then
    some (linkTarget root current_page
      (if startsWithL ("./".toList) link then link.drop 2 else link))
  else none

/-- The Link Resolver with the dead root-relative branch removed and the
stripping as the source performs it. -/
def resolve_link_nr (fs : FS) (current_page : FPath) (link : Chars) :
    Option FPath :=
  if startsWithL ("http://".toList) link || startsWithL ("https://".toList) link
  then none
  else if isFile fs (linkTargetRel current_page (lstripDotSlash link)) then
    some (linkTargetRel current_page (lstripDotSlash link))
  else none

lemma linkTarget_lstrip_eq (root current_page : FPath) (link : Chars) :
    linkTarget root current_page (lstripDotSlash link) =
      linkTargetRel current_page (lstripDotSlash link) := by
  unfold linkTarget linkTargetRel
  rw [lstrip_head_not_slash link]
  simp

/- Claim C3 concrete instance: a site-absolute link used from a nested
page, where the target exists under the root but not next to the
page. -/

def rootC3 : FPath := ["r".toList]

def pgC3 : FPath := rootC3 ++ ["sub".toList, "page.html".toList]

def aC3 : FPath := rootC3 ++ ["a.html".toList]

def fsC3 : FS := ⟨[aC3, pgC3], [rootC3, rootC3 ++ ["sub".toList]]⟩

/-- C3 (counterexample): on the link `/a.html` from `r/sub/page.html`
with `r/a.html` existing, the resolver the claim describes returns
`r/a.html`, but `_resolve_link` returns nothing: `lstrip('./')`
removes the leading slash, so the root-relative branch never fires and
the link is resolved against `r/sub/`, where no `a.html` exists. -/
theorem C3_counterexample :
    resolve_link_claim fsC3 rootC3 pgC3 ("/a.html".toList) = some aC3 ∧
      resolve_link fsC3 rootC3 pgC3 ("/a.html".toList) = none := by
  decide

/-- C3 (amended): `_resolve_link` strips every leading `.` and `/`
character from a non-external link; consequently the stripped link
never starts with `/`, the root-relative branch is dead code, every
non-external link is resolved relative to the directory containing
`fromPage`, and the result does not depend on the root directory at
all. -/
theorem C3_amended (fs : FS) (root root2 cur : FPath) (link : Chars) :
    resolve_link fs root cur link = resolve_link_nr fs cur link ∧
      resolve_link fs root cur link = resolve_link fs root2 cur link := by
  have key : ∀ r : FPath,
      resolve_link fs r cur link = resolve_link_nr fs cur link := by
    intro r
    unfold resolve_link resolve_link_nr
    rw [linkTarget_lstrip_eq]
  exact ⟨key root, (key root).trans (key root2).symm⟩

/-- C6: `find_start_page` implements exactly the tiered selection the
claim describes — the fixed canonical names checked under the root in
order, first match wins; then the first discovered `index`-named file
of globally minimal full-path-string length; then the first discovered
file with globally minimal relative segment count — and it returns
`none` only when no files were discovered. -/
theorem C6_start_page_tiers (fs : FS) (root : FPath) (files : List FPath) :
    find_start_page fs root files = selectStartSpec fs root files ∧
      (find_start_page fs root files = none → files = []) := by
  constructor
  · unfold find_start_page selectStartSpec
    rw [firstMinBy_eq_specFirstMin, firstMinBy_eq_specFirstMin]
  · intro h
    unfold find_start_page at h
    cases h1 : index_names.find?
        (fun n => decide (pathExists fs (root ++ [n]))) with
    | some n => rw [h1] at h; cases h
    | none =>
      rw [h1] at h
      cases h2 : firstMinBy pathStrLen
          (files.filter
            (fun f => containsSub (lowerL (lastSeg f)) ("index".toList))) with
      | some f => rw [h2] at h; cases h
      | none =>
        rw [h2] at h
        cases files with
        | nil => rfl
        | cons x xs => cases h

/-- C9: a per-file failure during indexing (the parse oracle returning
`none` for that file) excludes exactly that file from the registry and
nothing else: the registry entry of every discovered file is its own
record, a function of that file's parse result alone, and is `none`
precisely when the file was not discovered or failed to parse. -/
theorem C9_scan_error_isolation (root : FPath) (files : List FPath)
    (parse : FPath → Option Doc) (so : List Chars → List Chars) (f : FPath) :
    regFind (analyze_page_structure root files parse so) f =
      if f ∈ files then (parse f).map (fun d => mkRec root f d so)
      else none :=
  analyze_lookup root files parse so f

/-- C8: for every indexed file, the stored `depth` equals the number of
path segments of the file's path relative to the root minus one, which
equals the number of `/` separators in the stored relative path
string (assuming the file lies strictly below the root and its segment
names contain no separator, as real file names do). -/
theorem C8_depth_eq_separators (root : FPath) (files : List FPath)
    (parse : FPath → Option Doc) (so : List Chars → List Chars)
    (f : FPath) (rec : PageRec)
    (hfind : regFind (analyze_page_structure root files parse so) f = some rec)
    (hlen : root.length < f.length)
    (hseg : ∀ s ∈ f.drop root.length, ('/' : Char) ∉ s) :
    rec.depth = (f.drop root.length).length - 1 ∧
      countSlash rec.relPath = rec.depth := by
  rw [analyze_lookup] at hfind
  by_cases hf : f ∈ files
  · rw [if_pos hf] at hfind
    cases hp : parse f with
    | none => rw [hp] at hfind; cases hfind
    | some d =>
      rw [hp] at hfind
      simp only [Option.map_some'] at hfind
      obtain rfl : mkRec root f d so = rec := Option.some.inj hfind
      refine ⟨rfl, ?_⟩
      show countSlash (relStr (f.drop root.length)) = _
      rw [countSlash_relStr]
      · rfl
      · intro hnil
        have hd := congrArg List.length hnil
        simp only [List.length_drop, List.length_nil] at hd
        omega
      · exact hseg
  · rw [if_neg hf] at hfind
    cases hfind

/- Claim C1 concrete instance: a found sidebar container with no usable
anchors, two registry pages, cap 1. -/

def rootC1 : FPath := ["r".toList]

def iC1 : FPath := rootC1 ++ ["index.html".toList]

def yC1 : FPath := rootC1 ++ ["y.html".toList]

def filesC1 : List FPath := [iC1, yC1]

def fsC1 : FS := ⟨filesC1, [rootC1]⟩

def parseC1 (f : FPath) : Option Doc :=
  if f = iC1 then some ⟨none, [], [], some [], 0⟩
  else if f = yC1 then some ⟨none, [], [], none, 0⟩
  else none

def regC1 : List (FPath × PageRec) :=
  analyze_page_structure rootC1 filesC1 parseC1 List.dedup

/-- C1 (counterexample): with a page cap of 1 and the navigation-order
strategy in effect (the start page has a sidebar container), the final
order has length 2: the append step of the sidebar branch (source
lines 174-177) performs no cap check at all. -/
theorem C1_counterexample :
    ¬(build_page_tree fsC1 rootC1 filesC1 regC1 parseC1 (some 1)).length ≤ 1 := by
  decide

/-- C1 (amended): the cap bounds the final order's length only under the
breadth-first fallback: when a start page is found and the sidebar
yields nothing, both the breadth-first loop and the post-processing
append respect a positive cap `N`, so the output length is at most
`N`. (Under the navigation-order strategy the append step ignores the
cap, per the counterexample.) -/
theorem C1_amended (fs : FS) (root : FPath) (files : List FPath)
    (reg : List (FPath × PageRec)) (parse : FPath → Option Doc)
    (st : FPath) (N : Int)
    (hs : find_start_page fs root files = some st)
    (hsb : extract_sidebar_order fs root parse st = [])
    (hN : 0 < N) :
    ((build_page_tree fs root files reg parse (some N)).length : Int) ≤ N := by
  have hN0 : N ≠ 0 := by omega
  simp only [build_page_tree, hs, hsb]
  simp only [List.isEmpty_nil, Bool.not_true, Bool.false_eq_true, if_false]
  apply appendMissing_length_le hN0
  apply bfsLoop_length_le fs root reg hN0
  simpa using hN.le

/- Claim C1 witness instance: a one-page site with no sidebar. -/

def rootW1 : FPath := ["w".toList]

def iW1 : FPath := rootW1 ++ ["index.html".toList]

def filesW1 : List FPath := [iW1]

def fsW1 : FS := ⟨filesW1, [rootW1]⟩

def parseW1 (f : FPath) : Option Doc :=
  if f = iW1 then some ⟨none, [], [], none, 0⟩ else none

def regW1 : List (FPath × PageRec) :=
  analyze_page_structure rootW1 filesW1 parseW1 List.dedup

/-- C1 witness: the amended bound at a concrete one-page input with cap
1. -/
theorem C1_amended_witness :
    ((build_page_tree fsW1 rootW1 filesW1 regW1 parseW1 (some 1)).length : Int) ≤ 1 :=
  C1_amended fsW1 rootW1 filesW1 regW1 parseW1 iW1 1 (by decide) (by decide)
    (by decide)

/- Claim C4 concrete instance: the start page links to a file that
exists on disk but is absent from the registry (its parse failed). -/

def rootC4 : FPath := ["r".toList]

def iC4 : FPath := rootC4 ++ ["index.html".toList]

def xC4 : FPath := rootC4 ++ ["x.html".toList]

def filesC4 : List FPath := [iC4, xC4]

def fsC4 : FS := ⟨filesC4, [rootC4]⟩

def parseC4 (f : FPath) : Option Doc :=
  if f = iC4 then some ⟨none, [], ["x.html".toList], none, 0⟩ else none

def regC4 : List (FPath × PageRec) :=
  analyze_page_structure rootC4 filesC4 parseC4 List.dedup

/-- C4 (counterexample): with no sidebar the breadth-first fallback runs
and produces `[index.html, x.html]`, yet `x.html` is not a key of the
registry — the BFS admits any link target that exists on disk, whether
or not it was indexed. -/
theorem C4_counterexample :
    extract_sidebar_order fsC4 rootC4 parseC4 iC4 = [] ∧
      build_page_tree fsC4 rootC4 filesC4 regC4 parseC4 none = [iC4, xC4] ∧
      xC4 ∉ regC4.map Prod.fst := by
  decide

/-- C4 (amended): the breadth-first fallback never outputs a path twice,
and every path in its output exists on the file system at traversal
time (but need not be a registry key, per the counterexample). The
hypothesis rules out the degenerate seed `/`, the only path string
ending in a slash. -/
theorem C4_amended (fs : FS) (root : FPath) (reg : List (FPath × PageRec))
    (mp : Option Int) (fuel : Nat) (st : FPath)
    (h : st ≠ [] ∨ pathExists fs st) :
    (bfsLoop fs root reg mp fuel [st] [] []).Nodup ∧
      ∀ p ∈ bfsLoop fs root reg mp fuel [st] [] [], pathExists fs p := by
  apply bfsLoop_inv
  · exact List.nodup_nil
  · intro p hp; cases hp
  · intro p hp; cases hp
  · intro q hq
    rw [List.mem_singleton.mp hq]
    exact h

/-- C4 witness: the amended invariant at the concrete instance of the
counterexample's site. -/
theorem C4_amended_witness :
    (bfsLoop fsC4 rootC4 regC4 none (bfsFuel regC4) [iC4] [] []).Nodup ∧
      ∀ p ∈ bfsLoop fsC4 rootC4 regC4 none (bfsFuel regC4) [iC4] [] [],
        pathExists fsC4 p :=
  C4_amended fsC4 rootC4 regC4 none (bfsFuel regC4) iC4 (Or.inl (by decide))

/- Claim C5 concrete instance: a sidebar container that yields zero
entries. -/

def rootC5 : FPath := ["r".toList]

def iC5 : FPath := rootC5 ++ ["index.html".toList]

def yC5 : FPath := rootC5 ++ ["y.html".toList]

def filesC5 : List FPath := [iC5, yC5]

def fsC5 : FS := ⟨filesC5, [rootC5]⟩

def parseC5 (f : FPath) : Option Doc :=
  if f = iC5 then some ⟨none, [], [], some [], 0⟩
  else if f = yC5 then some ⟨none, [], [], none, 0⟩
  else none

def regC5 : List (FPath × PageRec) :=
  analyze_page_structure rootC5 filesC5 parseC5 List.dedup

/-- C5 (counterexample): the start page's navigation container is
present but yields zero entries, yet the extracted order is the
nonempty `[index.html]` — so the navigation-order strategy is used and
the breadth-first fallback does *not* run, contradicting the claimed
`if and only if`. -/
theorem C5_counterexample :
    (parseC5 iC5).bind Doc.sidebarAnchors = some [] ∧
      extract_sidebar_order fsC5 rootC5 parseC5 iC5 = [iC5] := by
  decide

/-- C5 (amended): the breadth-first fallback runs iff the start page
fails to parse or has no navigation container — a found container
always yields a nonempty sequence (it contains the start page), even
with zero link entries — and whenever the extracted sequence is
nonempty it is a prefix of the final order, never re-ordered by the
append step. -/
theorem C5_amended (fs : FS) (root : FPath) (files : List FPath)
    (reg : List (FPath × PageRec)) (parse : FPath → Option Doc)
    (mp : Option Int) (st : FPath)
    (hs : find_start_page fs root files = some st) :
    (extract_sidebar_order fs root parse st = [] ↔
      (parse st = none ∨ (parse st).bind Doc.sidebarAnchors = none)) ∧
    (extract_sidebar_order fs root parse st ≠ [] →
      ∃ t, build_page_tree fs root files reg parse mp =
        extract_sidebar_order fs root parse st ++ t) := by
  refine ⟨extract_sidebar_eq_nil_iff fs root parse st, ?_⟩
  intro hne
  simp only [build_page_tree, hs]
  have hemp : (extract_sidebar_order fs root parse st).isEmpty = false := by
    cases hx : extract_sidebar_order fs root parse st with
    | nil => exact absurd hx hne
    | cons a t => rfl
  rw [hemp]
  simp only [Bool.not_false, if_true]
  exact appendMissing_suffix _ _ _

/-- C5 witness: the amended statement at the counterexample's concrete
site. -/
theorem C5_amended_witness :
    (extract_sidebar_order fsC5 rootC5 parseC5 iC5 = [] ↔
      (parseC5 iC5 = none ∨ (parseC5 iC5).bind Doc.sidebarAnchors = none)) ∧
    (extract_sidebar_order fsC5 rootC5 parseC5 iC5 ≠ [] →
      ∃ t, build_page_tree fsC5 rootC5 filesC5 regC5 parseC5 none =
        extract_sidebar_order fsC5 rootC5 parseC5 iC5 ++ t) :=
  C5_amended fsC5 rootC5 filesC5 regC5 parseC5 none iC5 (by decide)

/-- C10: a page cap of `0` behaves exactly like an absent cap: the whole
order builder produces the same output for `maxPages = 0` as for
`maxPages = None`, and (when a start page exists) every registry page
appears in that output — nothing is truncated to length 0. -/
theorem C10_zero_cap_uncapped (fs : FS) (root : FPath) (files : List FPath)
    (reg : List (FPath × PageRec)) (parse : FPath → Option Doc) (st : FPath)
    (hs : find_start_page fs root files = some st) :
    build_page_tree fs root files reg parse (some 0) =
        build_page_tree fs root files reg parse none ∧
      ∀ k ∈ reg.map Prod.fst,
        k ∈ build_page_tree fs root files reg parse (some 0) := by
  constructor
  · simp only [build_page_tree, hs]
    by_cases hemp : (extract_sidebar_order fs root parse st).isEmpty = true
    · simp only [hemp, Bool.not_true, Bool.false_eq_true, if_false]
      rw [bfsLoop_cap_zero, capAllows_zero_eq]
    · simp only [Bool.not_eq_true] at hemp
      simp only [hemp, Bool.not_false, if_true]
  · intro k hk
    simp only [build_page_tree, hs]
    by_cases hemp : (extract_sidebar_order fs root parse st).isEmpty = true
    · simp only [hemp, Bool.not_true, Bool.false_eq_true, if_false]
      exact mem_appendMissing _ (fun n => rfl) _ _ k (Or.inl hk)
    · simp only [Bool.not_eq_true] at hemp
      simp only [hemp, Bool.not_false, if_true]
      exact mem_appendMissing _ (fun n => rfl) _ _ k (Or.inl hk)

/-- C10 witness: cap `0` equals no cap and every registry page is in the
output, at the concrete one-page site. -/
theorem C10_zero_cap_witness :
    build_page_tree fsW1 rootW1 filesW1 regW1 parseW1 (some 0) =
        build_page_tree fsW1 rootW1 filesW1 regW1 parseW1 none ∧
      ∀ k ∈ regW1.map Prod.fst,
        k ∈ build_page_tree fsW1 rootW1 filesW1 regW1 parseW1 (some 0) :=
  C10_zero_cap_uncapped fsW1 rootW1 filesW1 regW1 parseW1 iW1 (by decide)

/- Claim C2 concrete instance: a page whose only link points at a file
that does not exist. -/

def rootC2 : FPath := ["r".toList]

def pC2 : FPath := rootC2 ++ ["p.html".toList]

def fsC2 : FS := ⟨[pC2], [rootC2]⟩

def docC2 : Doc := ⟨none, [], ["missing.html".toList], none, 0⟩

def parseC2 (f : FPath) : Option Doc :=
  if f = pC2 then some docC2 else none

def regC2 : List (FPath × PageRec) :=
  analyze_page_structure rootC2 [pC2] parseC2 List.dedup

/-- C2 (counterexample): the indexer stores the raw cleaned href
`missing.html` in the page's `links` even though it resolves to no
existing file — dangling links are stored, because the indexer never
consults the Link Resolver or the file system when building `links`. -/
theorem C2_counterexample :
    (regFind regC2 pC2).map PageRec.links = some ["missing.html".toList] ∧
      resolve_link fsC2 rootC2 pC2 ("missing.html".toList) = none := by
  decide

/-- C2 (amended): the stored `links` of an indexed page are exactly the
page's raw hrefs after fragment/query stripping, percent-decoding and
the document-extension filter, deduplicated — resolution and existence
are not checked at indexing time, so dangling hrefs may be stored. -/
theorem C2_amended (root : FPath) (files : List FPath)
    (parse : FPath → Option Doc) (so : List Chars → List Chars)
    (f : FPath) (doc : Doc)
    (hso : IsSetOrder so) (hmem : f ∈ files) (hparse : parse f = some doc) :
    ∃ rec,
      regFind (analyze_page_structure root files parse so) f = some rec ∧
        rec.links.Nodup ∧
        ∀ x, x ∈ rec.links ↔
          ∃ a ∈ doc.anchors, cleanHref a = x ∧ keepLink x = true := by
  refine ⟨mkRec root f doc so, ?_, (hso _).1, ?_⟩
  · rw [analyze_lookup, if_pos hmem, hparse]
    rfl
  · intro x
    rw [show (mkRec root f doc so).links = so (extractLinks doc.anchors)
        from rfl]
    rw [(hso _).2 x]
    unfold extractLinks
    rw [List.mem_filter]
    constructor
    · rintro ⟨hx1, hx2⟩
      obtain ⟨a, ha1, ha2⟩ := List.mem_map.mp hx1
      exact ⟨a, ha1, ha2, hx2⟩
    · rintro ⟨a, ha1, ha2, hx2⟩
      exact ⟨List.mem_map.mpr ⟨a, ha1, ha2⟩, hx2⟩

/-- C2 witness: the amended characterization at the concrete one-page
site with a dangling link. -/
theorem C2_amended_witness :
    ∃ rec,
      regFind (analyze_page_structure rootC2 [pC2] parseC2 List.dedup) pC2 =
          some rec ∧
        rec.links.Nodup ∧
        ∀ x, x ∈ rec.links ↔
          ∃ a ∈ docC2.anchors, cleanHref a = x ∧ keepLink x = true :=
  C2_amended rootC2 [pC2] parseC2 List.dedup pC2 docC2 isSetOrder_dedup
    (by decide) rfl

/- Claim C7 scenario: root with index.html linking to a.html and b.html
in that document order, a.html linking to c.html, no navigation
container anywhere. -/

def rootS7 : FPath := ["r".toList]

def iS7 : FPath := rootS7 ++ ["index.html".toList]

def aS7 : FPath := rootS7 ++ ["a.html".toList]

def bS7 : FPath := rootS7 ++ ["b.html".toList]

def cS7 : FPath := rootS7 ++ ["c.html".toList]

def filesS7 : List FPath := [iS7, aS7, bS7, cS7]

def fsS7 : FS := ⟨filesS7, [rootS7]⟩

def docS7i : Doc := ⟨none, [], ["a.html".toList, "b.html".toList], none, 0⟩

def docS7a : Doc := ⟨none, [], ["c.html".toList], none, 0⟩

def docS7b : Doc := ⟨none, [], [], none, 0⟩

def docS7c : Doc := ⟨none, [], [], none, 0⟩

def parseS7 (f : FPath) : Option Doc :=
  if f = iS7 then some docS7i
  else if f = aS7 then some docS7a
  else if f = bS7 then some docS7b
  else if f = cS7 then some docS7c
  else none

def regS7 (so : List Chars → List Chars) : List (FPath × PageRec) :=
  analyze_page_structure rootS7 filesS7 parseS7 so

def buildS7 (so : List Chars → List Chars) : List FPath :=
  build_page_tree fsS7 rootS7 filesS7 (regS7 so) parseS7 none

/-- The identity stand-in for `list(set(...))`, used only to name the
registry of the scenario with its link lists abstracted out. -/
def idso : List Chars → List Chars := fun l => l

/-- The scenario's registry with the four stored link lists made
explicit parameters (they are whatever order `list(set(...))` chose). -/
def regExpl7 (li la lb lc : List Chars) : List (FPath × PageRec) :=
  [(iS7, { mkRec rootS7 iS7 docS7i idso with links := li }),
   (aS7, { mkRec rootS7 aS7 docS7a idso with links := la }),
   (bS7, { mkRec rootS7 bS7 docS7b idso with links := lb }),
   (cS7, { mkRec rootS7 cS7 docS7c idso with links := lc })]

/-- C7 (counterexample): the reversing order is a legitimate model of
Python's `list(set(...))` (same members, no duplicates — set iteration
order is not specified), and under it the breadth-first fallback
produces `[index, b, a, c]`, not the claimed `[index, a, b, c]`: the
scenario's expected order is not a consequence of the code. -/
theorem C7_counterexample :
    IsSetOrder (fun l => (List.dedup l).reverse) ∧
      buildS7 (fun l => (List.dedup l).reverse) ≠ [iS7, aS7, bS7, cS7] := by
  constructor
  · intro l
    refine ⟨List.nodup_reverse.mpr l.nodup_dedup, fun x => ?_⟩
    rw [List.mem_reverse]
    exact List.mem_dedup
  · decide

/-- C7 (amended): in the scenario, the BFS enqueues each page's links in
the order they appear in that page's stored registry link set; when
that stored order happens to preserve the document order `[a.html,
b.html]` (which Python's set iteration does not guarantee), the
fallback produces exactly `[index, a, b, c]`. -/
theorem C7_amended (so : List Chars → List Chars) (hso : IsSetOrder so)
    (h1 : so ["a.html".toList, "b.html".toList] =
      ["a.html".toList, "b.html".toList]) :
    buildS7 so = [iS7, aS7, bS7, cS7] := by
  have h2 : so ["c.html".toList] = ["c.html".toList] :=
    setOrder_singleton hso _
  have h3 : so [] = [] := setOrder_nil hso
  have hreg : regS7 so =
      regExpl7 (so ["a.html".toList, "b.html".toList]) (so ["c.html".toList])
        (so []) (so []) := rfl
  unfold buildS7
  rw [hreg, h1, h2, h3]
  decide

/-- C7 witness: `List.dedup` is an order-preserving admissible model of
`list(set(...))` on the scenario's duplicate-free link lists, and under
it the claimed order is produced. -/
theorem C7_amended_witness : buildS7 List.dedup = [iS7, aS7, bS7, cS7] :=
  C7_amended List.dedup isSetOrder_dedup (by decide)


/- Claim C8 witness instance: a file one directory below the root. -/

def rootW8 : FPath := ["r".toList]

def fW8 : FPath := rootW8 ++ ["d".toList, "x.html".toList]

def docW8 : Doc := ⟨none, [], [], none, 0⟩

def parseW8 (f : FPath) : Option Doc :=
  if f = fW8 then some docW8 else none

def recW8 : PageRec := mkRec rootW8 fW8 docW8 List.dedup

/-- C8 witness: the depth/separator equality at the concrete indexed
file `r/d/x.html`, whose record has depth 1 and relative path
`d/x.html` with one separator. -/
theorem C8_depth_witness :
    recW8.depth = ((fW8.drop rootW8.length).length - 1) ∧
      countSlash recW8.relPath = recW8.depth :=
  C8_depth_eq_separators rootW8 [fW8] parseW8 List.dedup fW8 recW8 rfl
    (by decide) (by decide)
